import Mathlib

/-!
Shallow embedding of the `minicdn` content store (crate `minicdn_core`,
file `src/lib.rs`), with all cargo features enabled (`etag`, `mime`,
`last_modified`, `brotli`, `gzip`, `webp`, `config`).

Rust strings are embedded as `List Char` (`RStr`).  The filesystem is a
finite tree of directories and files (`FSTree`); symbolic links are not
modelled, so `std::fs::canonicalize` is embedded as POSIX `realpath`
restricted to `.`/`..`/separator resolution plus existence checks.
External codecs (brotli, flate2, webp, toml, mime_guess, sha256) are
parameters of the embedding (`CodecEnv`, `Env`): the repository only
wraps them, and every claim under verification is about the wrapping
logic, not the codec internals.
-/

/-- Embedding of Rust `str`/`String`: a list of characters. -/
abbrev RStr := List Char

/-- Convenience conversion from Lean string literals. -/
def strL (s : String) : RStr := s.toList

/-- Splits a character list at every occurrence of `c` (models Rust
`str::split` / path-segment decomposition at a one-character separator). -/
def splitOnChar (c : Char) : RStr → List RStr
  | [] => [[]]
  | x :: xs =>
    let r := splitOnChar c xs
    if x = c then [] :: r else (x :: r.headI) :: r.tail

/-- Joins character lists with separator `c` (inverse of `splitOnChar`). -/
def joinChar (c : Char) : List RStr → RStr
  | [] => []
  | [x] => x
  | x :: xs => x ++ c :: joinChar c xs

/-! ## Filesystem model -/

/-- A finite, symlink-free filesystem tree: either a regular file with
byte contents, or a directory with named entries. -/
inductive FSTree where
  | file (contents : List Nat) : FSTree
  | dir (entries : List (RStr × FSTree)) : FSTree
deriving Repr

/-- Navigates a canonical segment path down a tree. -/
def lookupT (t : FSTree) : List RStr → Option FSTree
  | [] => some t
  | n :: rest =>
    match t with
    | .file _ => none
    | .dir es =>
      match es.find? (fun e => e.1 == n) with
      | some e => lookupT e.2 rest
      | none => none

/-- The canonical path denotes an existing directory. -/
def isDirT (t : FSTree) (segs : List RStr) : Bool :=
  match lookupT t segs with
  | some (.dir _) => true
  | _ => false

/-- Models `std::fs::read` on a canonical segment path: succeeds exactly
on regular files. -/
def readFileT (t : FSTree) (segs : List RStr) : Option (List Nat) :=
  match lookupT t segs with
  | some (.file c) => some c
  | _ => none

/-- The path separator used by the modelled host (Unix). -/
def SEP : Char := '/'

/-- Splits a path string into raw segments. -/
def splitSegs (s : RStr) : List RStr := splitOnChar SEP s

/-- Renders a canonical segment list as an absolute path string. -/
def renderAbs (segs : List RStr) : RStr := SEP :: joinChar SEP segs

/-- One-by-one resolution of raw path segments against the tree, as
`realpath` does: empty and `.` segments are skipped, `..` pops the last
canonical segment (staying at the root when already there), and every
directory that is traversed or popped from must exist. -/
def canonWalk (fs : FSTree) : List RStr → List RStr → Option (List RStr)
  | acc, [] => some acc
  | acc, seg :: rest =>
    if seg = [] ∨ seg = ['.'] then canonWalk fs acc rest
    else if seg = ['.', '.'] then
      if isDirT fs acc then canonWalk fs acc.dropLast rest else none
    else if isDirT fs acc then canonWalk fs (acc ++ [seg]) rest else none

/-- Models `std::path::Path::canonicalize` (POSIX `realpath`) on a
symlink-free tree: resolve the segments, then require the result to
exist; returns the rendered absolute path text. -/
def canonicalize (fs : FSTree) (s : RStr) : Option RStr :=
  match canonWalk fs [] (splitSegs s) with
  | none => none
  | some segs => if (lookupT fs segs).isSome then some (renderAbs segs) else none

/-- Models Rust `Path::join`: an absolute right-hand side replaces the
left-hand side entirely; otherwise the two are joined with a separator. -/
def joinPath (root p : RStr) : RStr :=
  match p with
  | [] => root
  | c :: _ => if c = SEP then p else root ++ SEP :: p

/-- Models `std::fs::read` on a rendered absolute path string. -/
def readPath (fs : FSTree) (s : RStr) : Option (List Nat) :=
  readFileT fs ((splitSegs s).filter (· ≠ []))

/-! ## Directory-walk ordering (`get_paths` / walkdir) -/

/-- File names with this suffix are treated as config descriptor files
(`CONFIG_SUFFIX` in the source). -/
def CONFIG_SUFFIX : RStr := strL ".minicdn"

/-- The `real` flag of the walk comparator: `false` for descriptor
files, `true` for everything else (`Priority::real` in `get_paths`). -/
def isRealName (n : RStr) : Bool := ! CONFIG_SUFFIX.isSuffixOf n

/-- Strict lexicographic comparison of names (byte order on the model's
characters), as `OsStr` ordering compares file names. -/
def rstrLT : RStr → RStr → Bool
  | [], [] => false
  | [], _ :: _ => true
  | _ :: _, [] => false
  | a :: as, b :: bs => a < b || (a == b && rstrLT as bs)

/-- The walk comparator on directory entries, modelling the derived
`Ord` on `Priority { real, file_name }`: descriptor files (with
`real = false`) sort before all sibling entries, ties broken by name. -/
def entryLEb (a b : RStr × FSTree) : Bool :=
  if isRealName a.1 = isRealName b.1 then ! rstrLT b.1 a.1
  else isRealName b.1

/-- The walk comparator as a relation. -/
def entryR (a b : RStr × FSTree) : Prop := entryLEb a b = true

instance : DecidableRel entryR := fun a b => by
  unfold entryR; infer_instance


/-- Sorting of one directory's entries by the walk comparator (walkdir's
`sort_by` applies this within every directory it reads). -/
def sortEntries (es : List (RStr × FSTree)) : List (RStr × FSTree) :=
  List.insertionSort entryR es

mutual

/-- Recursively sorts every directory of a tree with `sortEntries`,
modelling the per-directory ordering walkdir applies during traversal. -/
def sortTree : FSTree → FSTree
  | .file c => .file c
  | .dir es => .dir (sortEntries (sortChildren es))

/-- Pointwise `sortTree` over a directory's entries. -/
def sortChildren : List (RStr × FSTree) → List (RStr × FSTree)
  | [] => []
  | (n, t) :: rest => (n, sortTree t) :: sortChildren rest

end

mutual

/-- Relative segment paths of all regular files of a tree, in
depth-first order with each directory's entries taken in list order. -/
def walkFiles : FSTree → List (List RStr)
  | .file _ => [[]]
  | .dir es => walkChildren es

/-- Walk outputs of a directory's entries, each child's outputs
prefixed with the child's name. -/
def walkChildren : List (RStr × FSTree) → List (List RStr)
  | [] => []
  | (n, t) :: rest => (walkFiles t).map (fun rel => n :: rel) ++ walkChildren rest

end

/-- Models `get_paths`: walks the root (following the per-directory
comparator order, descriptor files first), keeps regular files, and
yields `(canonical absolute path text, relative path text)` pairs. -/
def get_paths (fs : FSTree) (root : RStr) : List (RStr × RStr) :=
  match canonWalk fs [] (splitSegs root) with
  | none => []
  | some rootC =>
    match lookupT fs rootC with
    | none => []
    | some t =>
      (walkFiles (sortTree t)).map
        (fun rel => (renderAbs (rootC ++ rel), joinChar SEP rel))

/-! ## Store data model -/

/-- Embedding of `MiniCdnFile` with all features enabled. -/
structure MiniCdnFile where
  etag : RStr
  last_modified : RStr
  mime : RStr
  contents : List Nat
  contents_brotli : Option (List Nat)
  contents_gzip : Option (List Nat)
  contents_webp : Option (List Nat)
deriving DecidableEq, Repr

/-- Abstract metadata derivation: `mime_guess` (from a path), `sha256`
etag derivation (from contents), and filesystem modification times (from
a path).  The claims under verification do not depend on their values. -/
structure Env where
  mimeF : RStr → RStr
  etagF : List Nat → RStr
  lastModifiedF : RStr → RStr

/-- Embedding of `EmbeddedMiniCdn`: its `HashMap` is modelled as an
association list with at most one binding per key. -/
structure EmbeddedMiniCdn where
  files : List (RStr × MiniCdnFile)
deriving DecidableEq, Repr

/-- Embedding of `FilesystemMiniCdn`. -/
structure FilesystemMiniCdn where
  root_path : RStr
deriving DecidableEq, Repr

/-- `EmbeddedMiniCdn::get`: plain map lookup, no other checks. -/
def EmbeddedMiniCdn.get (c : EmbeddedMiniCdn) (path : RStr) : Option MiniCdnFile :=
  (c.files.find? (fun e => e.1 == path)).map (·.2)

/-- `EmbeddedMiniCdn::insert`: replaces any binding of the same key. -/
def EmbeddedMiniCdn.insert (c : EmbeddedMiniCdn) (path : RStr)
    (file : MiniCdnFile) : EmbeddedMiniCdn :=
  ⟨(path, file) :: c.files.filter (fun e => ! (e.1 == path))⟩

/-- `EmbeddedMiniCdn::remove`. -/
def EmbeddedMiniCdn.remove (c : EmbeddedMiniCdn) (path : RStr) : EmbeddedMiniCdn :=
  ⟨c.files.filter (fun e => ! (e.1 == path))⟩

/-- `FilesystemMiniCdn::get`: reject descriptor paths, join the request
onto the root, canonicalize both, accept only when the canonical path
text starts with the canonical root text, then read and derive metadata;
any failure is an absent result. -/
def FilesystemMiniCdn.get (env : Env) (fs : FSTree) (c : FilesystemMiniCdn)
    (path : RStr) : Option MiniCdnFile :=
  if CONFIG_SUFFIX.isSuffixOf path then none
  else
    match canonicalize fs (joinPath c.root_path path) with
    | none => none
    | some canonical_path =>
      match canonicalize fs c.root_path with
      | none => none
      | some canonical_root_path =>
        if ! canonical_root_path.isPrefixOf canonical_path then none
        else
          match readPath fs canonical_path with
          | none => none
          | some contents =>
            some { mime := env.mimeF canonical_path
                   etag := env.etagF contents
                   last_modified := env.lastModifiedF canonical_path
                   contents := contents
                   contents_brotli := none
                   contents_gzip := none
                   contents_webp := none }

/-- `FilesystemMiniCdn::iter`: one `get` per walk entry, dropping
entries whose `get` is absent. -/
def FilesystemMiniCdn.iter (env : Env) (fs : FSTree) (c : FilesystemMiniCdn) :
    List (RStr × MiniCdnFile) :=
  (get_paths fs c.root_path).filterMap
    (fun pr => (FilesystemMiniCdn.get env fs c pr.2).map (fun f => (pr.2, f)))

/-- The `From<&FilesystemMiniCdn> for EmbeddedMiniCdn` conversion:
insert every `iter` entry into an empty embedded store. -/
def EmbeddedMiniCdn.fromFilesystem (env : Env) (fs : FSTree)
    (c : FilesystemMiniCdn) : EmbeddedMiniCdn :=
  (FilesystemMiniCdn.iter env fs c).foldl
    (fun acc pr => acc.insert pr.1 pr.2) ⟨[]⟩

/-- `EmbeddedMiniCdn::new`: embed the files under a root without
compressing, via the filesystem store's `iter`. -/
def EmbeddedMiniCdn.new (env : Env) (fs : FSTree) (root : RStr) : EmbeddedMiniCdn :=
  EmbeddedMiniCdn.fromFilesystem env fs ⟨root⟩

/-- Embedding of the `MiniCdn` enum. -/
inductive MiniCdn where
  | Embedded (e : EmbeddedMiniCdn) : MiniCdn
  | Filesystem (f : FilesystemMiniCdn) : MiniCdn
deriving DecidableEq, Repr

/-- `MiniCdn::get`. -/
def MiniCdn.get (env : Env) (fs : FSTree) : MiniCdn → RStr → Option MiniCdnFile
  | .Embedded e, path => e.get path
  | .Filesystem c, path => FilesystemMiniCdn.get env fs c path

/-- `MiniCdn::insert`: a filesystem store is first materialized into an
embedded snapshot, then the insert is performed on it. -/
def MiniCdn.insert (env : Env) (fs : FSTree) :
    MiniCdn → RStr → MiniCdnFile → MiniCdn
  | .Embedded e, path, file => .Embedded (e.insert path file)
  | .Filesystem c, path, file =>
    .Embedded ((EmbeddedMiniCdn.fromFilesystem env fs c).insert path file)

/-! ## Compression pipeline -/

/-- Per-asset compression configuration (the `Config` struct parsed from
descriptor files; WebP quality `none` means lossless). -/
structure Config where
  brotli_level : Nat
  brotli_buffer_size : Nat
  brotli_large_window_size : Nat
  gzip_level : Nat
  webp_quality : Option Nat
deriving DecidableEq, Repr

/-- The serde defaults of `Config`. -/
def defaultConfig : Config :=
  { brotli_level := 9
    brotli_buffer_size := 4096
    brotli_large_window_size := 20
    gzip_level := 8
    webp_quality := some 90 }

/-- Abstract external codecs: a brotli encoder (contents, buffer size,
quality, window), a gzip encoder (contents, level), a webp
decode-and-encode step which may fail on malformed images (contents,
quality), and the toml descriptor body parse. -/
structure CodecEnv where
  brotliEnc : List Nat → Nat → Nat → Nat → List Nat
  gzipEnc : List Nat → Nat → List Nat
  webpEnc : List Nat → Option Nat → Option (List Nat)
  parseConfig : List Nat → Config

/-- The `brotli` helper: encode, then keep the output only when
`output.len() * 10 / 9 < contents.len()`. -/
def brotli (cenv : CodecEnv) (contents : List Nat) (buffer_size quality lgwin : Nat) :
    Option (List Nat) :=
  let output := cenv.brotliEnc contents buffer_size quality lgwin
  if output.length * 10 / 9 < contents.length then some output else none

/-- The `gzip` helper, with the same keep condition. -/
def gzip (cenv : CodecEnv) (contents : List Nat) (level : Nat) : Option (List Nat) :=
  let vec := cenv.gzipEnc contents level
  if vec.length * 10 / 9 < contents.length then some vec else none

/-- The `webp` helper: only PNG and JPEG inputs are transcoded, a decode
or encode failure produces no variant, and the same keep condition is
applied to the encoder output. -/
def webp (cenv : CodecEnv) (contents : List Nat) (mime_essence : RStr)
    (quality : Option Nat) : Option (List Nat) :=
  if mime_essence = strL "image/png" ∨ mime_essence = strL "image/jpeg" then
    match cenv.webpEnc contents quality with
    | some webp_image =>
      if webp_image.length * 10 / 9 < contents.length then some webp_image else none
    | none => none
  else none

/-- The key under which a descriptor file is stored: its relative path
with the descriptor suffix removed (`strip_suffix`). -/
def stripConfigSuffix (rel : RStr) : Option RStr :=
  if CONFIG_SUFFIX.isSuffixOf rel then
    some (rel.take (rel.length - CONFIG_SUFFIX.length))
  else none

/-- The key under which an asset looks up its descriptor: the portion
of its relative path before the first `.` (`split_once('.')`), or the
whole path if it has no dot. -/
def stemKey (rel : RStr) : RStr := rel.takeWhile (fun c => ! (c == '.'))

/-- Replace-or-add insertion into the pending-descriptor map. -/
def configsInsert (name : RStr) (c : Config) (cs : List (RStr × Config)) :
    List (RStr × Config) :=
  (name, c) :: cs.filter (fun e => ! (e.1 == name))

/-- `HashMap::remove(...).unwrap_or_default()` on the pending-descriptor
map: the matched configuration (or defaults) plus the remaining map. -/
def configsRemove (key : RStr) (cs : List (RStr × Config)) :
    Config × List (RStr × Config) :=
  match cs.find? (fun e => e.1 == key) with
  | some e => (e.2, cs.filter (fun x => ! (x.1 == key)))
  | none => (defaultConfig, cs)

/-- One step of the `new_compressed` scan over a `(absolute, relative)`
walk entry: a descriptor file is parsed and stored as pending; a regular
asset takes (and consumes) its pending configuration, runs the pipeline
(WebP first; a kept WebP suppresses gzip and brotli), and is inserted. -/
def processEntry (cenv : CodecEnv) (env : Env) (fs : FSTree)
    (st : EmbeddedMiniCdn × List (RStr × Config)) (pr : RStr × RStr) :
    EmbeddedMiniCdn × List (RStr × Config) :=
  let contents := (readPath fs pr.1).getD []
  match stripConfigSuffix pr.2 with
  | some name => (st.1, configsInsert name (cenv.parseConfig contents) st.2)
  | none =>
    let last_modified := env.lastModifiedF pr.1
    let mime := env.mimeF pr.2
    let etag := env.etagF contents
    let cfg := configsRemove (stemKey pr.2) st.2
    let contents_webp := webp cenv contents mime cfg.1.webp_quality
    let special := contents_webp.isSome
    let contents_gzip := if special then none else gzip cenv contents cfg.1.gzip_level
    let contents_brotli :=
      if special then none
      else brotli cenv contents cfg.1.brotli_buffer_size cfg.1.brotli_level
        cfg.1.brotli_large_window_size
    (st.1.insert pr.2
      { etag := etag
        last_modified := last_modified
        mime := mime
        contents := contents
        contents_brotli := contents_brotli
        contents_gzip := contents_gzip
        contents_webp := contents_webp }, cfg.2)

/-- The pending-descriptor map left over after the scan of
`new_compressed` completes. -/
def pendingConfigs (cenv : CodecEnv) (env : Env) (fs : FSTree) (root : RStr) :
    List (RStr × Config) :=
  ((get_paths fs root).foldl (processEntry cenv env fs) (⟨[]⟩, [])).2

/-- `EmbeddedMiniCdn::new_compressed`: scan, process every entry, and
fail (the source's `assert!`) when descriptors are left unconsumed,
naming them. -/
def new_compressed (cenv : CodecEnv) (env : Env) (fs : FSTree) (root : RStr) :
    Except (List RStr) EmbeddedMiniCdn :=
  let st := (get_paths fs root).foldl (processEntry cenv env fs) (⟨[]⟩, [])
  if st.2.isEmpty then .ok st.1 else .error (st.2.map (·.1))

/-- A logical path in the sense of the spec's data model: forward-slash
separated, relative, with no empty, `.` or `..` segments. -/
def LogicalPath (p : RStr) : Prop :=
  ∀ s ∈ splitSegs p, s ≠ [] ∧ s ≠ ['.'] ∧ s ≠ ['.', '.']

instance (p : RStr) : Decidable (LogicalPath p) := by
  unfold LogicalPath; infer_instance

/-- A name is a clean directory-entry name: nonempty, not `.` or `..`,
and free of the separator.  Real filesystems enforce this for every
entry name. -/
def cleanNameb (n : RStr) : Bool :=
  decide (n ≠ [] ∧ n ≠ ['.'] ∧ n ≠ ['.', '.'] ∧ SEP ∉ n)

mutual

/-- Well-formedness of a model tree: every entry name is clean. -/
def wfTreeb : FSTree → Bool
  | .file _ => true
  | .dir es => wfChildrenb es

/-- Well-formedness of a directory's entries. -/
def wfChildrenb : List (RStr × FSTree) → Bool
  | [] => true
  | (n, t) :: rest => cleanNameb n && wfTreeb t && wfChildrenb rest

end

/-! ## Concrete fixtures used by witnesses and counterexamples -/

/-- Metadata environment with trivial derivations. -/
def env0 : Env := ⟨fun _ => [], fun _ => [], fun _ => []⟩

/-- Metadata environment classifying every path as a PNG image. -/
def envPng : Env := ⟨fun _ => strL "image/png", fun _ => [], fun _ => []⟩

/-- Codec environment whose webp step always fails. -/
def cenv0 : CodecEnv :=
  ⟨fun _ _ _ _ => [], fun _ _ => [], fun _ _ => none, fun _ => defaultConfig⟩

/-- Codec environment whose webp step produces a one-byte image. -/
def cenvPng : CodecEnv :=
  ⟨fun _ _ _ _ => [], fun _ _ => [], fun _ _ => some [1], fun _ => defaultConfig⟩

/-- A tree with escape opportunities: the store root `/r` holds `sub/`
and `index.html`, and `/rx` is a sibling whose text extends `/r`. -/
def treeEsc : FSTree := .dir [
  (strL "r", .dir [(strL "sub", .dir []), (strL "index.html", .file [1, 2, 3])]),
  (strL "rx", .dir [(strL "secret.txt", .file [9])])]

/-- A tree whose walk from `/r` yields a real asset before a descriptor
living in a subdirectory. -/
def treeWalk : FSTree := .dir [
  (strL "r", .dir [
    (strL "a.png", .file [1, 2]),
    (strL "z", .dir [(strL "b.minicdn", .file [5])])])]

/-- The repository's example tree, with a file outside the root. -/
def treeSite : FSTree := .dir [
  (strL "r", .dir [
    (strL "index.html", .file [1]),
    (strL "subtree", .dir [(strL "some_binary.bin", .file [2])])]),
  (strL "include.rs", .file [3])]

/-- A tree served with the filesystem root `/` itself as store root. -/
def treeSlash : FSTree := .dir [(strL "index.html", .file [7])]

/-- A tree holding a single image asset under `/r`. -/
def treePng : FSTree := .dir [(strL "r", .dir [(strL "a.png", .file [1, 2, 3])])]

/-- An arbitrary file record. -/
def dummyFile : MiniCdnFile :=
  { etag := [], last_modified := [], mime := [], contents := [42]
    contents_brotli := none, contents_gzip := none, contents_webp := none }

/-- The record `new_compressed cenvPng envPng treePng "/r"` produces for
`a.png`. -/
def pngFile : MiniCdnFile :=
  { etag := [], last_modified := [], mime := strL "image/png"
    contents := [1, 2, 3], contents_brotli := none, contents_gzip := none
    contents_webp := some [1] }

/-- The store `new_compressed cenvPng envPng treePng "/r"` produces. -/
def pngStore : EmbeddedMiniCdn := ⟨[(strL "a.png", pngFile)]⟩

/-- The store `new_compressed cenv0 env0 treeEsc "/r"` produces. -/
def escStore : EmbeddedMiniCdn := ⟨[(strL "index.html",
  { etag := [], last_modified := [], mime := [], contents := [1, 2, 3]
    contents_brotli := some [], contents_gzip := some [], contents_webp := none })]⟩

/-- The record Filesystem `get` returns for `index.html` of `treeEsc`
under `env0`. -/
def escFsFile : MiniCdnFile :=
  { etag := [], last_modified := [], mime := [], contents := [1, 2, 3]
    contents_brotli := none, contents_gzip := none, contents_webp := none }

/-! ## Helper lemmas -/

theorem splitOnChar_ne_nil (c : Char) (s : RStr) : splitOnChar c s ≠ [] := by
  cases s with
  | nil => simp [splitOnChar]
  | cons x xs => simp only [splitOnChar]; split <;> simp

theorem splitOnChar_cons_sep (c : Char) (xs : RStr) :
    splitOnChar c (c :: xs) = [] :: splitOnChar c xs := by
  simp [splitOnChar]

theorem splitOnChar_single (c : Char) (y : RStr) (h : c ∉ y) :
    splitOnChar c y = [y] := by
  induction y with
  | nil => simp [splitOnChar]
  | cons a as ih =>
    have ha : a ≠ c := fun hac => h (by simp [hac])
    have := ih (fun hc => h (by simp [hc]))
    simp [splitOnChar, ha, this]

theorem joinChar_cons_cons (c : Char) (a y : RStr) (ys : List RStr) :
    joinChar c (a :: y :: ys) = a ++ c :: joinChar c (y :: ys) := rfl

theorem joinChar_splitOnChar (c : Char) (s : RStr) :
    joinChar c (splitOnChar c s) = s := by
  induction s with
  | nil => simp [splitOnChar, joinChar]
  | cons x xs ih =>
    rcases hr : splitOnChar c xs with _ | ⟨y, ys⟩
    · exact absurd hr (splitOnChar_ne_nil c xs)
    · rw [hr] at ih
      by_cases hx : x = c
      · subst hx
        rw [splitOnChar_cons_sep, hr, joinChar_cons_cons, ih]
        simp [joinChar]
      · simp only [splitOnChar, hr, if_neg hx, List.headI, List.tail]
        cases ys with
        | nil => simpa [joinChar] using congrArg (x :: ·) ih
        | cons z zs =>
          rw [joinChar_cons_cons]
          rw [joinChar_cons_cons] at ih
          simpa using congrArg (x :: ·) ih

theorem splitOnChar_append_sep (c : Char) (a b : RStr) :
    splitOnChar c (a ++ c :: b) = splitOnChar c a ++ splitOnChar c b := by
  induction a with
  | nil => simp [splitOnChar_cons_sep, splitOnChar]
  | cons x xs ih =>
    rcases hr : splitOnChar c xs with _ | ⟨y, ys⟩
    · exact absurd hr (splitOnChar_ne_nil c xs)
    · have : splitOnChar c (x :: (xs ++ c :: b)) =
          let r := splitOnChar c (xs ++ c :: b)
          if x = c then [] :: r else (x :: r.headI) :: r.tail := rfl
      rw [List.cons_append, this, ih, hr]
      simp only [splitOnChar, hr]
      split <;> simp

theorem not_mem_of_mem_splitOnChar (c : Char) (s : RStr) :
    ∀ x ∈ splitOnChar c s, c ∉ x := by
  induction s with
  | nil => simp [splitOnChar]
  | cons a as ih =>
    rcases hr : splitOnChar c as with _ | ⟨y, ys⟩
    · exact absurd hr (splitOnChar_ne_nil c as)
    · rw [hr] at ih
      by_cases hac : a = c
      · subst hac
        rw [splitOnChar_cons_sep, hr]
        intro x hx
        rcases List.mem_cons.1 hx with h | h
        · subst h; simp
        · exact ih x h
      · simp only [splitOnChar, hr, if_neg hac, List.headI, List.tail]
        intro x hx
        rcases List.mem_cons.1 hx with h | h
        · subst h
          intro hc
          rcases List.mem_cons.1 hc with h' | h'
          · exact hac h'.symm
          · exact ih y (by simp) h'
        · exact ih x (by simp [h])

theorem splitOnChar_joinChar (c : Char) (xs : List RStr) (hne : xs ≠ [])
    (hfree : ∀ x ∈ xs, c ∉ x) : splitOnChar c (joinChar c xs) = xs := by
  induction xs with
  | nil => exact absurd rfl hne
  | cons y ys ih =>
    cases ys with
    | nil => exact splitOnChar_single c y (hfree y (by simp))
    | cons z zs =>
      rw [joinChar_cons_cons, splitOnChar_append_sep,
        splitOnChar_single c y (hfree y (by simp)),
        ih (by simp) (fun x hx => hfree x (by simp [hx]))]
      simp


theorem rstrLT_irrefl (a : RStr) : rstrLT a a = false := by
  induction a with
  | nil => rfl
  | cons x xs ih => simp [rstrLT, ih]

theorem rstrLT_trans (a b c : RStr) (h₁ : rstrLT a b = true)
    (h₂ : rstrLT b c = true) : rstrLT a c = true := by
  induction a generalizing b c with
  | nil =>
    cases b with
    | nil => simp [rstrLT] at h₁
    | cons y ys =>
      cases c with
      | nil => simp [rstrLT] at h₂
      | cons z zs => simp [rstrLT]
  | cons x xs ih =>
    cases b with
    | nil => simp [rstrLT] at h₁
    | cons y ys =>
      cases c with
      | nil => simp [rstrLT] at h₂
      | cons z zs =>
        simp only [rstrLT, Bool.or_eq_true, Bool.and_eq_true, beq_iff_eq,
          decide_eq_true_eq] at h₁ h₂ ⊢
        rcases h₁ with h₁ | ⟨rfl, h₁⟩
        · rcases h₂ with h₂ | ⟨rfl, h₂⟩
          · exact Or.inl (lt_trans h₁ h₂)
          · exact Or.inl h₁
        · rcases h₂ with h₂ | ⟨rfl, h₂⟩
          · exact Or.inl h₂
          · exact Or.inr ⟨rfl, ih ys zs h₁ h₂⟩

theorem rstrLT_asymm (a b : RStr) (h : rstrLT a b = true) :
    rstrLT b a = false := by
  rw [Bool.eq_false_iff]
  intro hc
  have := rstrLT_trans a b a h hc
  rw [rstrLT_irrefl] at this
  exact Bool.noConfusion this

theorem rstrLT_connected (a b : RStr) (h : a ≠ b) :
    rstrLT a b = true ∨ rstrLT b a = true := by
  induction a generalizing b with
  | nil =>
    cases b with
    | nil => exact absurd rfl h
    | cons y ys => exact Or.inl (by simp [rstrLT])
  | cons x xs ih =>
    cases b with
    | nil => exact Or.inr (by simp [rstrLT])
    | cons y ys =>
      by_cases hxy : x = y
      · subst hxy
        have hne : xs ≠ ys := fun he => h (by rw [he])
        rcases ih ys hne with h' | h'
        · exact Or.inl (by simp [rstrLT, h'])
        · exact Or.inr (by simp [rstrLT, h'])
      · rcases lt_or_gt_of_ne hxy with h' | h'
        · exact Or.inl (by simp [rstrLT, h'])
        · exact Or.inr (by simp [rstrLT, h'])

theorem rstrLE_trans (a b c : RStr) (h₁ : rstrLT b a = false)
    (h₂ : rstrLT c b = false) : rstrLT c a = false := by
  rw [Bool.eq_false_iff]
  intro hca
  by_cases hba : b = a
  · subst hba
    rw [h₂] at hca
    exact Bool.noConfusion hca
  · rcases rstrLT_connected b a hba with h | h
    · rw [h₁] at h
      exact Bool.noConfusion h
    · have := rstrLT_trans c a b hca h
      rw [h₂] at this
      exact Bool.noConfusion this

theorem entryR_total (a b : RStr × FSTree) : entryR a b ∨ entryR b a := by
  unfold entryR entryLEb
  by_cases hf : isRealName a.1 = isRealName b.1
  · rw [if_pos hf, if_pos hf.symm]
    simp only [Bool.not_eq_true']
    by_cases hab : a.1 = b.1
    · left; simp [hab, rstrLT_irrefl]
    · rcases rstrLT_connected a.1 b.1 hab with h | h
      · exact Or.inl (rstrLT_asymm _ _ h)
      · exact Or.inr (rstrLT_asymm _ _ h)
  · rw [if_neg hf, if_neg (fun he => hf he.symm)]
    cases ha : isRealName a.1 <;> cases hb : isRealName b.1 <;> simp_all

theorem entryR_trans (a b c : RStr × FSTree) (h₁ : entryR a b) (h₂ : entryR b c) :
    entryR a c := by
  unfold entryR entryLEb at h₁ h₂ ⊢
  by_cases hab : isRealName a.1 = isRealName b.1 <;>
    by_cases hbc : isRealName b.1 = isRealName c.1
  · rw [if_pos hab] at h₁
    rw [if_pos hbc] at h₂
    rw [if_pos (hab.trans hbc), Bool.not_eq_true'] at *
    exact rstrLE_trans _ _ _ h₁ h₂
  · rw [if_neg hbc] at h₂
    rw [if_neg (fun he => hbc (hab ▸ he))]
    exact h₂
  · rw [if_neg hab] at h₁
    rw [if_neg (fun he => hab (he.trans hbc.symm))]
    rw [← hbc]
    exact h₁
  · exfalso
    rw [if_neg hab] at h₁
    rw [if_neg hbc] at h₂
    cases hb : isRealName b.1
    · rw [hb] at h₁
      exact Bool.noConfusion h₁
    · exact hbc (hb.trans h₂.symm)

theorem find?_filter_ne {α : Type} (l : List (RStr × α)) (p q : RStr) (h : q ≠ p) :
    ((l.filter (fun e => ! (e.1 == p))).find? (fun e => e.1 == q)) =
      l.find? (fun e => e.1 == q) := by
  induction l with
  | nil => rfl
  | cons x xs ih =>
    have hpq : (p == q) = false := beq_eq_false_iff_ne.mpr (fun he => h he.symm)
    by_cases hx : x.1 = p
    · have h2 : (x.1 == q) = false := by rw [hx]; exact hpq
      simp [List.filter_cons, hx, List.find?_cons, h2, ih, hpq, h]
    · by_cases hq : x.1 = q
      · simp [List.filter_cons, hx, List.find?_cons, hq, h]
      · simp [List.filter_cons, hx, List.find?_cons, hq, ih, h]

theorem EmbeddedMiniCdn.get_insert_self (c : EmbeddedMiniCdn) (p : RStr)
    (f : MiniCdnFile) : (c.insert p f).get p = some f := by
  simp [EmbeddedMiniCdn.get, EmbeddedMiniCdn.insert, List.find?_cons]

theorem EmbeddedMiniCdn.get_insert_ne (c : EmbeddedMiniCdn) (p q : RStr)
    (f : MiniCdnFile) (h : q ≠ p) : (c.insert p f).get q = c.get q := by
  have hpq : (p == q) = false := by
    simp only [beq_eq_false_iff_ne, ne_eq]
    exact fun he => h he.symm
  simp [EmbeddedMiniCdn.get, EmbeddedMiniCdn.insert, List.find?_cons, hpq,
    find?_filter_ne _ _ _ h]

theorem EmbeddedMiniCdn.get_remove_self (c : EmbeddedMiniCdn) (p : RStr) :
    (c.remove p).get p = none := by
  have : (c.files.filter (fun e => ! (e.1 == p))).find? (fun e => e.1 == p) = none := by
    rw [List.find?_eq_none]
    intro x hx
    have := (List.mem_filter.1 hx).2
    simpa using this
  simp [EmbeddedMiniCdn.get, EmbeddedMiniCdn.remove, this]

theorem EmbeddedMiniCdn.get_remove_ne (c : EmbeddedMiniCdn) (p q : RStr)
    (h : q ≠ p) : (c.remove p).get q = c.get q := by
  simp [EmbeddedMiniCdn.get, EmbeddedMiniCdn.remove, find?_filter_ne _ _ _ h]

theorem foldl_insert_get_not_mem (l : List (RStr × MiniCdnFile))
    (init : EmbeddedMiniCdn) (q : RStr) (h : ∀ pr ∈ l, pr.1 ≠ q) :
    (l.foldl (fun acc pr => acc.insert pr.1 pr.2) init).get q = init.get q := by
  induction l generalizing init with
  | nil => rfl
  | cons x xs ih =>
    rw [List.foldl_cons, ih _ (fun pr hpr => h pr (by simp [hpr]))]
    exact EmbeddedMiniCdn.get_insert_ne _ _ _ _ (fun he => h x (by simp) he.symm)

theorem foldl_insert_get_mem (l : List (RStr × MiniCdnFile))
    (init : EmbeddedMiniCdn) (q : RStr) (v : MiniCdnFile)
    (h : (l.foldl (fun acc pr => acc.insert pr.1 pr.2) init).get q = some v) :
    (q, v) ∈ l ∨ init.get q = some v := by
  induction l generalizing init with
  | nil => exact Or.inr h
  | cons x xs ih =>
    rw [List.foldl_cons] at h
    rcases ih _ h with hm | hi
    · exact Or.inl (by simp [hm])
    · by_cases hq : q = x.1
      · subst hq
        rw [EmbeddedMiniCdn.get_insert_self] at hi
        left
        have : v = x.2 := by injection hi.symm
        rw [this]
        simp
      · rw [EmbeddedMiniCdn.get_insert_ne _ _ _ _ hq] at hi
        exact Or.inr hi

theorem foldl_insert_get_of_mem (l : List (RStr × MiniCdnFile))
    (init : EmbeddedMiniCdn) (q : RStr) (v : MiniCdnFile)
    (huniq : ∀ pr ∈ l, pr.1 = q → pr.2 = v)
    (hmem : (∃ pr ∈ l, pr.1 = q) ∨ init.get q = some v) :
    (l.foldl (fun acc pr => acc.insert pr.1 pr.2) init).get q = some v := by
  induction l generalizing init with
  | nil =>
    rcases hmem with ⟨pr, hpr, _⟩ | hi
    · exact absurd hpr (List.not_mem_nil pr)
    · exact hi
  | cons x xs ih =>
    rw [List.foldl_cons]
    refine ih _ (fun pr hpr hq => huniq pr (by simp [hpr]) hq) ?_
    by_cases hx : x.1 = q
    · right
      have hv : x.2 = v := huniq x (by simp) hx
      rw [← hx, hv]
      exact EmbeddedMiniCdn.get_insert_self _ _ _
    · rcases hmem with ⟨pr, hpr, hq⟩ | hi
      · rcases List.mem_cons.1 hpr with he | he
        · exact absurd (he ▸ hq) hx
        · exact Or.inl ⟨pr, he, hq⟩
      · right
        rw [EmbeddedMiniCdn.get_insert_ne _ _ _ _ (fun he => hx he.symm)]
        exact hi

theorem foldl_inv {σ α : Type} (step : σ → α → σ) (P : σ → Prop) (l : List α)
    (init : σ) (h0 : P init) (hstep : ∀ s a, a ∈ l → P s → P (step s a)) :
    P (l.foldl step init) := by
  induction l generalizing init with
  | nil => exact h0
  | cons x xs ih =>
    exact ih _ (hstep init x (by simp) h0) (fun s a ha hp => hstep s a (by simp [ha]) hp)

/-! ## Claim theorems -/

/-- C2: for every input byte sequence and every codec (brotli, gzip,
webp) the pipeline keeps the encoded variant exactly when
`encoded_size * 10 < original_size * 9`, i.e. the integer check
`encoded.len() * 10 / 9 < original.len()` performed by the code is
equivalent to that inequality for all sizes. -/
theorem c2_threshold_keep_iff (cenv : CodecEnv) (contents : List Nat)
    (buffer_size quality lgwin level : Nat) (m : RStr) (q : Option Nat) :
    (((brotli cenv contents buffer_size quality lgwin).isSome = true) ↔
      (cenv.brotliEnc contents buffer_size quality lgwin).length * 10 <
        contents.length * 9) ∧
    (((gzip cenv contents level).isSome = true) ↔
      (cenv.gzipEnc contents level).length * 10 < contents.length * 9) ∧
    (∀ w, cenv.webpEnc contents q = some w →
      (m = strL "image/png" ∨ m = strL "image/jpeg") →
      (((webp cenv contents m q).isSome = true) ↔
        w.length * 10 < contents.length * 9)) ∧
    (∀ e o : Nat, e * 10 / 9 < o ↔ e * 10 < o * 9) := by
  have key : ∀ e o : Nat, e * 10 / 9 < o ↔ e * 10 < o * 9 := fun e o =>
    Nat.div_lt_iff_lt_mul (by norm_num)
  refine ⟨?_, ?_, ?_, key⟩
  · rw [← key]
    by_cases h : (cenv.brotliEnc contents buffer_size quality lgwin).length * 10 / 9 <
        contents.length <;> simp [brotli, h]
  · rw [← key]
    by_cases h : (cenv.gzipEnc contents level).length * 10 / 9 < contents.length <;>
      simp [gzip, h]
  · intro w hw hm
    rw [← key]
    simp only [webp, if_pos hm, hw]
    split <;> simp_all

/-- C2 witness: concrete instances of the keep-variant equivalence. -/
theorem c2_threshold_keep_iff_witness :
    (((webp cenvPng [1, 2, 3] (strL "image/png") (some 90)).isSome = true) ↔
      ([1] : List Nat).length * 10 < ([1, 2, 3] : List Nat).length * 9) ∧
    (((brotli cenv0 [1, 2, 3] 4096 9 20).isSome = true) ↔
      (cenv0.brotliEnc [1, 2, 3] 4096 9 20).length * 10 <
        ([1, 2, 3] : List Nat).length * 9) :=
  ⟨(c2_threshold_keep_iff cenvPng [1, 2, 3] 0 0 0 0 (strL "image/png")
      (some 90)).2.2.1 [1] rfl (Or.inl rfl),
   (c2_threshold_keep_iff cenv0 [1, 2, 3] 4096 9 20 8 [] none).1⟩

/-- C10: on an embedded store, `remove p` makes `get p` absent and
leaves every other key's record unchanged, and `insert p f` leaves
every other key's record unchanged. -/
theorem c10_frame (c : EmbeddedMiniCdn) (p q : RStr) (f : MiniCdnFile)
    (h : q ≠ p) :
    (c.remove p).get p = none ∧ (c.remove p).get q = c.get q ∧
    (c.insert p f).get q = c.get q :=
  ⟨EmbeddedMiniCdn.get_remove_self c p, EmbeddedMiniCdn.get_remove_ne c p q h,
   EmbeddedMiniCdn.get_insert_ne c p q f h⟩

/-- C10 witness: the frame property at a concrete two-entry store. -/
theorem c10_frame_witness :
    ((⟨[(strL "a", dummyFile), (strL "b", dummyFile)]⟩ : EmbeddedMiniCdn).remove
      (strL "a")).get (strL "a") = none ∧
    ((⟨[(strL "a", dummyFile), (strL "b", dummyFile)]⟩ : EmbeddedMiniCdn).remove
      (strL "a")).get (strL "b") =
      (⟨[(strL "a", dummyFile), (strL "b", dummyFile)]⟩ : EmbeddedMiniCdn).get
        (strL "b") ∧
    ((⟨[(strL "a", dummyFile), (strL "b", dummyFile)]⟩ : EmbeddedMiniCdn).insert
      (strL "a") dummyFile).get (strL "b") =
      (⟨[(strL "a", dummyFile), (strL "b", dummyFile)]⟩ : EmbeddedMiniCdn).get
        (strL "b") :=
  c10_frame ⟨[(strL "a", dummyFile), (strL "b", dummyFile)]⟩ (strL "a")
    (strL "b") dummyFile (by decide)

/-- C8 counterexample: the claim asserts `get` is absent for
descriptor-suffix paths on every store, including stores mutated by
`insert`; but embedded `get` performs no suffix check, so inserting a
descriptor-named file makes it retrievable. -/
theorem c8_counterexample :
    CONFIG_SUFFIX.isSuffixOf (strL "x.minicdn") = true ∧
    MiniCdn.get env0 treeEsc
      (MiniCdn.insert env0 treeEsc (.Embedded ⟨[]⟩) (strL "x.minicdn") dummyFile)
      (strL "x.minicdn") = some dummyFile := by
  decide

theorem new_compressed_eq (cenv : CodecEnv) (env : Env) (fs : FSTree)
    (root : RStr) :
    new_compressed cenv env fs root =
      if (pendingConfigs cenv env fs root).isEmpty
      then .ok (((get_paths fs root).foldl (processEntry cenv env fs) (⟨[]⟩, [])).1)
      else .error ((pendingConfigs cenv env fs root).map (·.1)) := rfl

/-- C8 amended: descriptor-suffix paths are absent on Filesystem `get`
and on every Embedded store built by the provided constructors
(`From<&FilesystemMiniCdn>` / `new` and `new_compressed`); embedded
`get` itself performs no suffix check, so an explicit `insert` of a
descriptor-named entry is retrievable (see the counterexample). -/
theorem c8_amended (env : Env) (fs : FSTree) (c : FilesystemMiniCdn)
    (cenv : CodecEnv) (root p : RStr) (s : EmbeddedMiniCdn)
    (hp : CONFIG_SUFFIX.isSuffixOf p = true)
    (hok : new_compressed cenv env fs root = .ok s) :
    FilesystemMiniCdn.get env fs c p = none ∧
    (EmbeddedMiniCdn.fromFilesystem env fs c).get p = none ∧
    s.get p = none := by
  have hfs : ∀ c' : FilesystemMiniCdn, FilesystemMiniCdn.get env fs c' p = none := by
    intro c'
    simp [FilesystemMiniCdn.get, hp]
  refine ⟨hfs c, ?_, ?_⟩
  · rcases hg : (EmbeddedMiniCdn.fromFilesystem env fs c).get p with _ | v
    · rfl
    · exfalso
      unfold EmbeddedMiniCdn.fromFilesystem at hg
      rcases foldl_insert_get_mem _ _ _ _ hg with hm | hi
      · unfold FilesystemMiniCdn.iter at hm
        rcases List.mem_filterMap.1 hm with ⟨pr, _, hmap⟩
        rcases Option.map_eq_some'.1 hmap with ⟨f, hf, hpair⟩
        have hp2 : pr.2 = p := congrArg Prod.fst hpair
        rw [hp2, hfs c] at hf
        exact Option.noConfusion hf
      · simp [EmbeddedMiniCdn.get] at hi
  · have hinv :
        (((get_paths fs root).foldl (processEntry cenv env fs) (⟨[]⟩, [])).1).get p
          = none := by
      have := foldl_inv (processEntry cenv env fs)
        (fun st => st.1.get p = none) (get_paths fs root) (⟨[]⟩, [])
        (by simp [EmbeddedMiniCdn.get]) ?_
      · exact this
      · intro st pr _ hP
        unfold processEntry
        rcases hcfg : stripConfigSuffix pr.2 with _ | name
        · have hsuffix : CONFIG_SUFFIX.isSuffixOf pr.2 = false := by
            cases hs : CONFIG_SUFFIX.isSuffixOf pr.2
            · rfl
            · exfalso
              unfold stripConfigSuffix at hcfg
              rw [if_pos hs] at hcfg
              exact Option.noConfusion hcfg
          have hne : p ≠ pr.2 := fun he => by
            rw [he, hsuffix] at hp
            exact Bool.noConfusion hp
          simpa using (EmbeddedMiniCdn.get_insert_ne st.1 pr.2 p _ hne).trans hP
        · simpa using hP
    rw [new_compressed_eq] at hok
    split at hok
    · injection hok with he
      rw [← he]
      exact hinv
    · exact Except.noConfusion hok

/-- C8 amended witness: the amended statement at a concrete tree,
descriptor path and compressed store. -/
theorem c8_amended_witness :
    FilesystemMiniCdn.get env0 treeEsc ⟨strL "/r"⟩ (strL "x.minicdn") = none ∧
    (EmbeddedMiniCdn.fromFilesystem env0 treeEsc ⟨strL "/r"⟩).get
      (strL "x.minicdn") = none ∧
    escStore.get (strL "x.minicdn") = none :=
  c8_amended env0 treeEsc ⟨strL "/r"⟩ cenv0 (strL "/r") (strL "x.minicdn")
    escStore (by decide) rfl

/-- C7: construction by `new_compressed` succeeds exactly when no
parsed descriptor is left unconsumed after the walk; on failure the
error names exactly the orphaned descriptors; and a walk containing no
descriptor file always constructs successfully. -/
theorem c7_orphan_descriptors (cenv : CodecEnv) (env : Env) (fs : FSTree)
    (root : RStr) :
    ((∃ s, new_compressed cenv env fs root = .ok s) ↔
      pendingConfigs cenv env fs root = []) ∧
    (∀ e, new_compressed cenv env fs root = .error e →
      e = (pendingConfigs cenv env fs root).map (·.1) ∧ e ≠ []) ∧
    ((∀ pr ∈ get_paths fs root, CONFIG_SUFFIX.isSuffixOf pr.2 = false) →
      ∃ s, new_compressed cenv env fs root = .ok s) := by
  refine ⟨?_, ?_, ?_⟩
  · rw [new_compressed_eq]
    by_cases he : (pendingConfigs cenv env fs root).isEmpty
    · rw [if_pos he]
      exact ⟨fun _ => by simpa using he, fun _ => ⟨_, rfl⟩⟩
    · rw [if_neg he]
      constructor
      · rintro ⟨s, hs⟩
        exact Except.noConfusion hs
      · intro hnil
        exact absurd (by simpa using hnil) he
  · intro e herr
    rw [new_compressed_eq] at herr
    split at herr
    · exact Except.noConfusion herr
    · injection herr with he
      subst he
      refine ⟨rfl, ?_⟩
      intro hmapnil
      rename_i hne
      rw [List.map_eq_nil_iff] at hmapnil
      exact hne (by simpa using hmapnil)
  · intro hall
    have hnil : pendingConfigs cenv env fs root = [] := by
      have := foldl_inv (processEntry cenv env fs) (fun st => st.2 = [])
        (get_paths fs root) (⟨[]⟩, []) rfl ?_
      · exact this
      · intro st pr hpr hP
        have hsuffix := hall pr hpr
        have hstrip : stripConfigSuffix pr.2 = none := by
          unfold stripConfigSuffix
          rw [hsuffix]
          simp
        unfold processEntry
        rw [hstrip]
        simp [configsRemove, hP]
    exact ⟨((get_paths fs root).foldl (processEntry cenv env fs) (⟨[]⟩, [])).1,
      by rw [new_compressed_eq, if_pos (by simpa using hnil)]⟩

/-- C7 witness: a concrete orphaned descriptor (`z/b.minicdn` with no
matching asset) is reported by name, and a concrete descriptor-free
tree constructs successfully. -/
theorem c7_orphan_descriptors_witness :
    ([strL "z/b"] = (pendingConfigs cenv0 env0 treeWalk (strL "/r")).map (·.1) ∧
      [strL "z/b"] ≠ []) ∧
    (∃ s, new_compressed cenvPng envPng treePng (strL "/r") = .ok s) :=
  ⟨(c7_orphan_descriptors cenv0 env0 treeWalk (strL "/r")).2.1 [strL "z/b"] rfl,
   (c7_orphan_descriptors cenvPng envPng treePng (strL "/r")).2.2 (by decide)⟩

/-- C6: in every store built by `new_compressed`, an asset whose kept
WebP variant is present has no brotli and no gzip variant (generic
compression is skipped entirely for it). -/
theorem c6_webp_exclusivity (cenv : CodecEnv) (env : Env) (fs : FSTree)
    (root : RStr) (s : EmbeddedMiniCdn) (p : RStr) (f : MiniCdnFile)
    (hok : new_compressed cenv env fs root = .ok s)
    (hget : s.get p = some f) (hwebp : f.contents_webp.isSome = true) :
    f.contents_brotli = none ∧ f.contents_gzip = none := by
  have hinv :
      ∀ p f, (((get_paths fs root).foldl (processEntry cenv env fs) (⟨[]⟩, [])).1).get p
          = some f → f.contents_webp.isSome = true →
        f.contents_brotli = none ∧ f.contents_gzip = none := by
    have := foldl_inv (processEntry cenv env fs)
      (fun st => ∀ p f, st.1.get p = some f → f.contents_webp.isSome = true →
        f.contents_brotli = none ∧ f.contents_gzip = none)
      (get_paths fs root) (⟨[]⟩, []) ?_ ?_
    · exact this
    · intro p f h
      simp [EmbeddedMiniCdn.get] at h
    · intro st pr _ hP p f hget hwebp
      unfold processEntry at hget
      rcases hcfg : stripConfigSuffix pr.2 with _ | name
      · rw [hcfg] at hget
        simp only at hget
        by_cases hp : p = pr.2
        · subst hp
          rw [EmbeddedMiniCdn.get_insert_self] at hget
          injection hget with hf
          subst hf
          constructor
          · show (if (webp cenv ((readPath fs pr.1).getD []) (env.mimeF pr.2)
                (configsRemove (stemKey pr.2) st.2).1.webp_quality).isSome = true
              then none else _) = none
            rw [if_pos (by simpa using hwebp)]
          · show (if (webp cenv ((readPath fs pr.1).getD []) (env.mimeF pr.2)
                (configsRemove (stemKey pr.2) st.2).1.webp_quality).isSome = true
              then none else _) = none
            rw [if_pos (by simpa using hwebp)]
        · rw [EmbeddedMiniCdn.get_insert_ne _ _ _ _ hp] at hget
          exact hP p f hget hwebp
      · rw [hcfg] at hget
        exact hP p f hget hwebp
  rw [new_compressed_eq] at hok
  split at hok
  · injection hok with he
    rw [← he] at hget
    exact hinv p f hget hwebp
  · exact Except.noConfusion hok

/-- C6 witness: the exclusivity at a concrete image asset whose WebP
variant is kept. -/
theorem c6_webp_exclusivity_witness :
    pngFile.contents_brotli = none ∧ pngFile.contents_gzip = none :=
  c6_webp_exclusivity cenvPng envPng treePng (strL "/r") pngStore (strL "a.png")
    pngFile rfl rfl rfl

/-- C9 counterexample: the walk order is not a global total order with
all descriptors first: walkdir sorts per directory, so a descriptor in
a subdirectory is yielded after a top-level non-descriptor asset. -/
theorem c9_counterexample :
    (get_paths treeWalk (strL "/r")).map (·.2) =
      [strL "a.png", strL "z/b.minicdn"] ∧
    CONFIG_SUFFIX.isSuffixOf (strL "a.png") = false ∧
    CONFIG_SUFFIX.isSuffixOf (strL "z/b.minicdn") = true := by
  decide

/-- C9 amended: the scan order is the deterministic depth-first walk in
which each directory's entries are sorted by the comparator: within any
one directory, every descriptor file sorts before every non-descriptor
sibling, ties broken lexicographically by file name; hence a sibling
list never places a non-descriptor before a descriptor. -/
theorem c9_amended (es : List (RStr × FSTree)) :
    List.Sorted entryR (sortEntries es) ∧
    (sortEntries es).Perm es ∧
    (sortEntries es).Pairwise
      (fun a b => isRealName a.1 = true → isRealName b.1 = true) ∧
    (∀ a b : RStr × FSTree, isRealName a.1 = false → isRealName b.1 = true →
      entryR a b ∧ ¬ entryR b a) ∧
    (∀ a b : RStr × FSTree, isRealName a.1 = isRealName b.1 →
      (entryR a b ↔ rstrLT b.1 a.1 = false)) := by
  letI : IsTotal (RStr × FSTree) entryR := ⟨entryR_total⟩
  letI : IsTrans (RStr × FSTree) entryR := ⟨fun a b c => entryR_trans a b c⟩
  have hsorted : List.Sorted entryR (sortEntries es) :=
    List.sorted_insertionSort entryR es
  refine ⟨hsorted, List.perm_insertionSort entryR es, ?_, ?_, ?_⟩
  · refine hsorted.imp ?_
    intro a b hr ha
    unfold entryR entryLEb at hr
    by_cases hf : isRealName a.1 = isRealName b.1
    · rw [← hf]; exact ha
    · rw [if_neg hf] at hr; exact hr
  · intro a b ha hb
    constructor
    · unfold entryR entryLEb
      rw [if_neg (by rw [ha, hb]; exact Bool.noConfusion), hb]
    · unfold entryR entryLEb
      rw [if_neg (by rw [ha, hb]; exact fun h => Bool.noConfusion h), ha]
      exact Bool.noConfusion
  · intro a b hf
    unfold entryR entryLEb
    rw [if_pos hf]
    exact Bool.not_eq_true' _ ▸ Iff.rfl

theorem canonWalk_append (fs : FSTree) (xs ys : List RStr) :
    ∀ acc, canonWalk fs acc (xs ++ ys) =
      (canonWalk fs acc xs).bind (fun a => canonWalk fs a ys) := by
  induction xs with
  | nil => intro acc; simp [canonWalk]
  | cons s rest ih =>
    intro acc
    simp only [List.cons_append, canonWalk, List.append_eq]
    by_cases h1 : s = [] ∨ s = ['.']
    · rw [if_pos h1, if_pos h1, ih]
    · rw [if_neg h1, if_neg h1]
      by_cases h2 : s = ['.', '.']
      · rw [if_pos h2, if_pos h2]
        by_cases h3 : isDirT fs acc = true
        · rw [if_pos h3, if_pos h3, ih]
        · rw [if_neg h3, if_neg h3]; rfl
      · rw [if_neg h2, if_neg h2]
        by_cases h3 : isDirT fs acc = true
        · rw [if_pos h3, if_pos h3, ih]
        · rw [if_neg h3, if_neg h3]; rfl

theorem canonWalk_clean_eq (fs : FSTree) (segs : List RStr)
    (hclean : ∀ s ∈ segs, s ≠ [] ∧ s ≠ ['.'] ∧ s ≠ ['.', '.']) :
    ∀ acc out, canonWalk fs acc segs = some out → out = acc ++ segs := by
  induction segs with
  | nil =>
    intro acc out h
    simp only [canonWalk] at h
    injection h with h
    simp [← h]
  | cons s rest ih =>
    intro acc out h
    obtain ⟨h1, h2, h3⟩ := hclean s (by simp)
    simp only [canonWalk] at h
    rw [if_neg (by simp [h1, h2]), if_neg h3] at h
    by_cases hd : isDirT fs acc = true
    · rw [if_pos hd] at h
      have := ih (fun x hx => hclean x (by simp [hx])) (acc ++ [s]) out h
      rw [this]
      simp
    · rw [if_neg hd] at h
      exact Option.noConfusion h

theorem canonWalk_mem (fs : FSTree) (segs : List RStr) :
    ∀ acc out, canonWalk fs acc segs = some out →
      ∀ x ∈ out, x ∈ acc ∨ (x ∈ segs ∧ x ≠ []) := by
  induction segs with
  | nil =>
    intro acc out h x hx
    simp only [canonWalk] at h
    injection h with h
    exact Or.inl (h ▸ hx)
  | cons s rest ih =>
    intro acc out h x hx
    simp only [canonWalk] at h
    by_cases h1 : s = [] ∨ s = ['.']
    · rw [if_pos h1] at h
      rcases ih acc out h x hx with hin | ⟨hin, hne⟩
      · exact Or.inl hin
      · exact Or.inr ⟨by simp [hin], hne⟩
    · rw [if_neg h1] at h
      by_cases h2 : s = ['.', '.']
      · rw [if_pos h2] at h
        by_cases h3 : isDirT fs acc = true
        · rw [if_pos h3] at h
          rcases ih _ out h x hx with hin | ⟨hin, hne⟩
          · exact Or.inl (List.Sublist.subset (List.dropLast_sublist _) hin)
          · exact Or.inr ⟨by simp [hin], hne⟩
        · rw [if_neg h3] at h; exact Option.noConfusion h
      · rw [if_neg h2] at h
        by_cases h3 : isDirT fs acc = true
        · rw [if_pos h3] at h
          rcases ih _ out h x hx with hin | ⟨hin, hne⟩
          · rcases List.mem_append.1 hin with hin | hin
            · exact Or.inl hin
            · have : x = s := by simpa using hin
              subst this
              exact Or.inr ⟨by simp, fun he => h1 (Or.inl he)⟩
          · exact Or.inr ⟨by simp [hin], hne⟩
        · rw [if_neg h3] at h; exact Option.noConfusion h

theorem lookupT_append (a b : List RStr) : ∀ t : FSTree,
    lookupT t (a ++ b) = (lookupT t a).bind (fun u => lookupT u b) := by
  induction a with
  | nil => intro t; simp [lookupT]
  | cons n rest ih =>
    intro t
    cases t with
    | file c => simp [lookupT]
    | dir es =>
      simp only [List.cons_append, lookupT]
      cases h : es.find? (fun e => e.1 == n) with
      | none => simp
      | some e => simp [ih]

theorem splitSegs_renderAbs_filter (segs : List RStr)
    (h : ∀ x ∈ segs, SEP ∉ x ∧ x ≠ []) :
    (splitSegs (renderAbs segs)).filter (· ≠ []) = segs := by
  unfold renderAbs splitSegs
  rw [splitOnChar_cons_sep]
  cases hs : segs with
  | nil => simp [joinChar, splitOnChar]
  | cons a as =>
    rw [← hs, splitOnChar_joinChar SEP segs (by rw [hs]; simp)
      (fun x hx => (h x hx).1)]
    rw [List.filter_cons]
    have hf : segs.filter (· ≠ []) = segs :=
      List.filter_eq_self.mpr (fun x hx => by simp [(h x hx).2])
    rw [if_neg (by simp)]
    exact hf

theorem readPath_renderAbs (fs : FSTree) (segs : List RStr)
    (h : ∀ x ∈ segs, SEP ∉ x ∧ x ≠ []) :
    readPath fs (renderAbs segs) = readFileT fs segs := by
  unfold readPath
  rw [show (splitSegs (renderAbs segs)).filter (· ≠ []) = segs from
    splitSegs_renderAbs_filter segs h]

theorem canonicalize_eq_some (fs : FSTree) (s cp : RStr)
    (h : canonicalize fs s = some cp) :
    ∃ segs, canonWalk fs [] (splitSegs s) = some segs ∧
      (lookupT fs segs).isSome = true ∧ cp = renderAbs segs := by
  unfold canonicalize at h
  split at h
  · exact Option.noConfusion h
  · rename_i segs hw
    split at h
    · rename_i he
      exact ⟨segs, hw, he, (Option.some.inj h).symm⟩
    · exact Option.noConfusion h

theorem mem_sortChildren_of_mem (es : List (RStr × FSTree)) (pr : RStr × FSTree)
    (h : pr ∈ es) : (pr.1, sortTree pr.2) ∈ sortChildren es := by
  induction es with
  | nil => cases h
  | cons x xs ih =>
    obtain ⟨m, u⟩ := x
    rw [show sortChildren ((m, u) :: xs) = (m, sortTree u) :: sortChildren xs
      from rfl]
    rcases List.mem_cons.1 h with he | he
    · subst he; simp
    · exact List.mem_cons.2 (Or.inr (ih he))

theorem mem_sortChildren_elim (es : List (RStr × FSTree)) (pr : RStr × FSTree)
    (h : pr ∈ sortChildren es) : ∃ pr₀ ∈ es, pr = (pr₀.1, sortTree pr₀.2) := by
  induction es with
  | nil => cases h
  | cons x xs ih =>
    obtain ⟨m, u⟩ := x
    rw [show sortChildren ((m, u) :: xs) = (m, sortTree u) :: sortChildren xs
      from rfl] at h
    rcases List.mem_cons.1 h with he | he
    · exact ⟨(m, u), by simp, he⟩
    · obtain ⟨pr₀, hmem, he'⟩ := ih he
      exact ⟨pr₀, by simp [hmem], he'⟩

theorem mem_walkChildren_of (l : List (RStr × FSTree)) (n : RStr) (t' : FSTree)
    (rel : List RStr) (hmem : (n, t') ∈ l) (hrel : rel ∈ walkFiles t') :
    (n :: rel) ∈ walkChildren l := by
  induction l with
  | nil => cases hmem
  | cons x xs ih =>
    obtain ⟨m, u⟩ := x
    rw [show walkChildren ((m, u) :: xs) =
      (walkFiles u).map (fun r => m :: r) ++ walkChildren xs from rfl]
    rcases List.mem_cons.1 hmem with he | he
    · injection he with he1 he2
      subst he1
      subst he2
      exact List.mem_append.2 (Or.inl (List.mem_map.2 ⟨rel, hrel, rfl⟩))
    · exact List.mem_append.2 (Or.inr (ih he))

theorem mem_walkChildren_elim (l : List (RStr × FSTree)) (rel : List RStr)
    (h : rel ∈ walkChildren l) :
    ∃ n t' rel', (n, t') ∈ l ∧ rel = n :: rel' ∧ rel' ∈ walkFiles t' := by
  induction l with
  | nil => cases h
  | cons x xs ih =>
    obtain ⟨m, u⟩ := x
    rw [show walkChildren ((m, u) :: xs) =
      (walkFiles u).map (fun r => m :: r) ++ walkChildren xs from rfl] at h
    rcases List.mem_append.1 h with h | h
    · rcases List.mem_map.1 h with ⟨r, hr, he⟩
      exact ⟨m, u, r, by simp, he.symm, hr⟩
    · obtain ⟨n, t', rel', hmem, he, hw⟩ := ih h
      exact ⟨n, t', rel', by simp [hmem], he, hw⟩

theorem walk_complete (segs : List RStr) : ∀ (t : FSTree) (cont : List Nat),
    lookupT t segs = some (.file cont) → segs ∈ walkFiles (sortTree t) := by
  induction segs with
  | nil =>
    intro t cont h
    simp only [lookupT] at h
    injection h with h
    rw [h]
    rw [show sortTree (.file cont) = .file cont from rfl]
    simp [walkFiles]
  | cons n rest ih =>
    intro t cont h
    cases t with
    | file c => simp [lookupT] at h
    | dir es =>
      simp only [lookupT] at h
      cases hf : es.find? (fun e => e.1 == n) with
      | none => rw [hf] at h; exact Option.noConfusion h
      | some e =>
        rw [hf] at h
        have hmem : e ∈ es := List.mem_of_find?_eq_some hf
        have hname : e.1 = n := by simpa using List.find?_some hf
        have hrest := ih e.2 cont h
        have h1 : (e.1, sortTree e.2) ∈ sortChildren es :=
          mem_sortChildren_of_mem es e hmem
        have h2 : (e.1, sortTree e.2) ∈ sortEntries (sortChildren es) := by
          unfold sortEntries
          exact ((List.perm_insertionSort entryR _).mem_iff).2 h1
        have h3 := mem_walkChildren_of _ e.1 (sortTree e.2) rest h2 hrest
        rw [hname] at h3
        rw [show sortTree (.dir es) = .dir (sortEntries (sortChildren es)) from rfl]
        rw [show walkFiles (.dir (sortEntries (sortChildren es))) =
          walkChildren (sortEntries (sortChildren es)) from rfl]
        exact h3

theorem wfChildrenb_mem (es : List (RStr × FSTree)) (h : wfChildrenb es = true) :
    ∀ pr ∈ es, cleanNameb pr.1 = true ∧ wfTreeb pr.2 = true := by
  induction es with
  | nil => simp
  | cons x xs ih =>
    obtain ⟨m, u⟩ := x
    rw [show wfChildrenb ((m, u) :: xs) =
      (cleanNameb m && wfTreeb u && wfChildrenb xs) from rfl,
      Bool.and_eq_true, Bool.and_eq_true] at h
    intro pr hpr
    rcases List.mem_cons.1 hpr with he | he
    · subst he; exact ⟨h.1.1, h.1.2⟩
    · exact ih h.2 pr he

theorem wf_lookupT (segs : List RStr) : ∀ (t t' : FSTree), wfTreeb t = true →
    lookupT t segs = some t' → wfTreeb t' = true := by
  induction segs with
  | nil =>
    intro t t' hw h
    simp only [lookupT] at h
    injection h with h
    exact h ▸ hw
  | cons n rest ih =>
    intro t t' hw h
    cases t with
    | file c => simp [lookupT] at h
    | dir es =>
      simp only [lookupT] at h
      cases hf : es.find? (fun e => e.1 == n) with
      | none => rw [hf] at h; exact Option.noConfusion h
      | some e =>
        rw [hf] at h
        have hmem := List.mem_of_find?_eq_some hf
        have hwe := (wfChildrenb_mem es (by
          rw [show wfTreeb (.dir es) = wfChildrenb es from rfl] at hw
          exact hw) e hmem).2
        exact ih e.2 t' hwe h

theorem walk_segs_clean (rel : List RStr) : ∀ (t : FSTree), wfTreeb t = true →
    rel ∈ walkFiles (sortTree t) → ∀ s ∈ rel, cleanNameb s = true := by
  induction rel with
  | nil => intro t _ _ s hs; cases hs
  | cons n rest ih =>
    intro t hw hmem s hs
    cases t with
    | file c =>
      rw [show walkFiles (sortTree (.file c)) = [[]] from rfl] at hmem
      simp at hmem
    | dir es =>
      rw [show walkFiles (sortTree (.dir es)) =
        walkChildren (sortEntries (sortChildren es)) from rfl] at hmem
      obtain ⟨m, t', rel', hmem', he, hwalk⟩ := mem_walkChildren_elim _ _ hmem
      have hmem'' : (m, t') ∈ sortChildren es := by
        unfold sortEntries at hmem'
        exact ((List.perm_insertionSort entryR _).mem_iff).1 hmem'
      obtain ⟨pr₀, hpr₀, hesort⟩ := mem_sortChildren_elim _ _ hmem''
      have hwf0 := wfChildrenb_mem es (by
        rw [show wfTreeb (.dir es) = wfChildrenb es from rfl] at hw
        exact hw) pr₀ hpr₀
      injection he with he1 he2
      injection hesort with hm1 hm2
      rcases List.mem_cons.1 hs with hsn | hsr
      · rw [hsn, he1, hm1]
        exact hwf0.1
      · refine ih pr₀.2 hwf0.2 ?_ s hsr
        rw [he2, ← hm2]
        exact hwalk

theorem fsGet_none_of_suffix (env : Env) (fs : FSTree) (c : FilesystemMiniCdn)
    (p : RStr) (hs : CONFIG_SUFFIX.isSuffixOf p = true) :
    FilesystemMiniCdn.get env fs c p = none := by
  unfold FilesystemMiniCdn.get
  rw [if_pos hs]

theorem fsGet_none_of_canon_none (env : Env) (fs : FSTree)
    (c : FilesystemMiniCdn) (p : RStr)
    (hcp : canonicalize fs (joinPath c.root_path p) = none) :
    FilesystemMiniCdn.get env fs c p = none := by
  unfold FilesystemMiniCdn.get
  by_cases hs : CONFIG_SUFFIX.isSuffixOf p = true
  · rw [if_pos hs]
  · rw [if_neg hs, hcp]

theorem fsGet_none_of_not_isPrefixOf (env : Env) (fs : FSTree)
    (c : FilesystemMiniCdn) (p cp cr : RStr)
    (hcp : canonicalize fs (joinPath c.root_path p) = some cp)
    (hcr : canonicalize fs c.root_path = some cr)
    (hpre : cr.isPrefixOf cp = false) :
    FilesystemMiniCdn.get env fs c p = none := by
  unfold FilesystemMiniCdn.get
  split
  · rfl
  split
  · rfl
  rename_i cp' hcp'
  split
  · rfl
  rename_i cr' hcr'
  rw [hcp] at hcp'
  rw [hcr] at hcr'
  injection hcp' with e1
  injection hcr' with e2
  subst e1
  subst e2
  rw [if_pos (by rw [hpre]; rfl)]

theorem fsGet_eq_some (env : Env) (fs : FSTree) (c : FilesystemMiniCdn)
    (p : RStr) (f : MiniCdnFile)
    (h : FilesystemMiniCdn.get env fs c p = some f) :
    CONFIG_SUFFIX.isSuffixOf p = false ∧
    ∃ cp cr, canonicalize fs (joinPath c.root_path p) = some cp ∧
      canonicalize fs c.root_path = some cr ∧
      cr.isPrefixOf cp = true ∧
      readPath fs cp = some f.contents := by
  unfold FilesystemMiniCdn.get at h
  split at h
  · exact Option.noConfusion h
  rename_i hs
  refine ⟨Bool.eq_false_iff.mpr hs, ?_⟩
  split at h
  · exact Option.noConfusion h
  rename_i cp hcp
  split at h
  · exact Option.noConfusion h
  rename_i cr hcr
  split at h
  · exact Option.noConfusion h
  rename_i hpre
  split at h
  · exact Option.noConfusion h
  rename_i contents hread
  injection h with h
  refine ⟨cp, cr, hcp, hcr, ?_, ?_⟩
  · cases hx : cr.isPrefixOf cp
    · exact absurd (by rw [hx]; rfl) hpre
    · rfl
  · rw [hread, ← h]

theorem mem_iter (env : Env) (fs : FSTree) (c : FilesystemMiniCdn)
    (q : RStr) (g : MiniCdnFile) :
    (q, g) ∈ FilesystemMiniCdn.iter env fs c ↔
      ((∃ pr ∈ get_paths fs c.root_path, pr.2 = q) ∧
        FilesystemMiniCdn.get env fs c q = some g) := by
  unfold FilesystemMiniCdn.iter
  rw [List.mem_filterMap]
  constructor
  · rintro ⟨pr, hpr, hmap⟩
    rcases Option.map_eq_some'.1 hmap with ⟨f, hf, hpair⟩
    have h1 : pr.2 = q := congrArg Prod.fst hpair
    have h2 : f = g := congrArg Prod.snd hpair
    exact ⟨⟨pr, hpr, h1⟩, by rw [← h1, hf, h2]⟩
  · rintro ⟨⟨pr, hpr, hq⟩, hget⟩
    refine ⟨pr, hpr, ?_⟩
    rw [hq, hget]
    rfl

theorem fsGet_some_mem_paths (env : Env) (fs : FSTree) (root p : RStr)
    (f : MiniCdnFile) (hlog : LogicalPath p)
    (h : FilesystemMiniCdn.get env fs ⟨root⟩ p = some f) :
    ∃ pr ∈ get_paths fs root, pr.2 = p := by
  obtain ⟨hsuf, cp, cr, hcp, hcr, hpre, hread⟩ := fsGet_eq_some env fs ⟨root⟩ p f h
  have hp_ne : p ≠ [] := by
    intro he
    subst he
    exact (hlog [] (by simp [splitSegs, splitOnChar])).1 rfl
  have hjoin : joinPath root p = root ++ SEP :: p := by
    rcases hp : p with _ | ⟨x, xs⟩
    · exact absurd hp hp_ne
    · have hx : x ≠ SEP := by
        intro hxs
        subst hxs
        have : ([] : RStr) ∈ splitSegs p := by
          rw [hp, show splitSegs (SEP :: xs) = [] :: splitOnChar SEP xs from
            splitOnChar_cons_sep SEP xs]
          simp
        exact (hlog [] this).1 rfl
      rw [← hp]
      show joinPath root p = root ++ SEP :: p
      rw [hp]
      simp [joinPath, hx]
  obtain ⟨segsJ, hwalkJ, hexJ, hcpEq⟩ := canonicalize_eq_some fs _ cp hcp
  rw [hjoin] at hwalkJ
  have hsplit : splitSegs (root ++ SEP :: p) = splitSegs root ++ splitSegs p :=
    splitOnChar_append_sep SEP root p
  rw [hsplit, canonWalk_append] at hwalkJ
  rcases hwr : canonWalk fs [] (splitSegs root) with _ | rootC
  · rw [hwr] at hwalkJ
    exact Option.noConfusion hwalkJ
  · rw [hwr] at hwalkJ
    simp only [Option.bind] at hwalkJ
    have hclean : ∀ s ∈ splitSegs p, s ≠ [] ∧ s ≠ ['.'] ∧ s ≠ ['.', '.'] := hlog
    have hsegsJ : segsJ = rootC ++ splitSegs p :=
      canonWalk_clean_eq fs (splitSegs p) hclean rootC segsJ hwalkJ
    have hwfsegs : ∀ x ∈ segsJ, SEP ∉ x ∧ x ≠ [] := by
      intro x hx
      rw [hsegsJ] at hx
      rcases List.mem_append.1 hx with hx | hx
      · rcases canonWalk_mem fs (splitSegs root) [] rootC hwr x hx with hin | ⟨hin, hne⟩
        · cases hin
        · exact ⟨not_mem_of_mem_splitOnChar SEP root x hin, hne⟩
      · exact ⟨not_mem_of_mem_splitOnChar SEP p x hx, (hclean x hx).1⟩
    have hreadF : readFileT fs segsJ = some f.contents := by
      rw [← readPath_renderAbs fs segsJ hwfsegs, ← hcpEq]
      exact hread
    have hlook : lookupT fs segsJ = some (.file f.contents) := by
      unfold readFileT at hreadF
      rcases hl : lookupT fs segsJ with _ | u
      · rw [hl] at hreadF; exact Option.noConfusion hreadF
      · rw [hl] at hreadF
        cases u with
        | file cc =>
          injection hreadF with hcc
          rw [hcc]
        | dir es => exact Option.noConfusion hreadF
    rw [hsegsJ, lookupT_append] at hlook
    rcases hrt : lookupT fs rootC with _ | t0
    · rw [hrt] at hlook; exact Option.noConfusion hlook
    · rw [hrt] at hlook
      simp only [Option.bind] at hlook
      have hwmem : splitSegs p ∈ walkFiles (sortTree t0) :=
        walk_complete (splitSegs p) t0 f.contents hlook
      have hpaths : get_paths fs root =
          (walkFiles (sortTree t0)).map
            (fun rel => (renderAbs (rootC ++ rel), joinChar SEP rel)) := by
        unfold get_paths
        split
        · rename_i hw'
          rw [hwr] at hw'
          exact Option.noConfusion hw'
        rename_i rootC' hw'
        rw [hwr] at hw'
        injection hw' with e
        subst e
        split
        · rename_i hr'
          rw [hrt] at hr'
          exact Option.noConfusion hr'
        rename_i t0' hr'
        rw [hrt] at hr'
        injection hr' with e
        subst e
        rfl
      refine ⟨(renderAbs (rootC ++ splitSegs p), joinChar SEP (splitSegs p)),
        ?_, joinChar_splitOnChar SEP p⟩
      rw [hpaths]
      exact List.mem_map.2 ⟨splitSegs p, hwmem, rfl⟩

/-- C1 counterexample: a `..`-containing request that canonicalizes
back inside the root is served, and a request that resolves outside the
root (to the sibling `/rx`, whose text extends `/r`) is also served, so
neither "`..` implies absent" nor "outside the root implies absent"
holds of Filesystem `get`. -/
theorem c1_counterexample :
    (['.', '.'] ∈ splitSegs (strL "sub/../index.html") ∧
      (FilesystemMiniCdn.get env0 treeEsc ⟨strL "/r"⟩
        (strL "sub/../index.html")).isSome = true) ∧
    (canonicalize treeEsc (joinPath (strL "/r") (strL "../rx/secret.txt")) =
        some (strL "/rx/secret.txt") ∧
      List.isPrefixOf [strL "r"] [strL "rx", strL "secret.txt"] = false ∧
      (FilesystemMiniCdn.get env0 treeEsc ⟨strL "/r"⟩
        (strL "../rx/secret.txt")).isSome = true) := by
  decide

/-- C1 amended: Filesystem `get` is absent whenever the joined request
fails to canonicalize, or whenever the canonical root text is not a
textual prefix of the canonical path text; every served request has
passed exactly that canonical-text prefix check.  On an Embedded store
built from a (well-formed) root, any request containing a `..` segment
is absent, since embedded keys are walk-relative paths.  A `..` request
that canonicalizes inside the root, or an escaping request whose
canonical text extends the root text, may however be served by the
Filesystem store (see the counterexample). -/
theorem c1_amended (env : Env) (fs : FSTree) (c : FilesystemMiniCdn)
    (root p : RStr) :
    (canonicalize fs (joinPath c.root_path p) = none →
      FilesystemMiniCdn.get env fs c p = none) ∧
    (∀ cp cr, canonicalize fs (joinPath c.root_path p) = some cp →
      canonicalize fs c.root_path = some cr → cr.isPrefixOf cp = false →
      FilesystemMiniCdn.get env fs c p = none) ∧
    (∀ f, FilesystemMiniCdn.get env fs c p = some f →
      ∃ cp cr, canonicalize fs (joinPath c.root_path p) = some cp ∧
        canonicalize fs c.root_path = some cr ∧ cr.isPrefixOf cp = true) ∧
    (wfTreeb fs = true → ['.', '.'] ∈ splitSegs p →
      (EmbeddedMiniCdn.new env fs root).get p = none) := by
  refine ⟨fsGet_none_of_canon_none env fs c p,
    fun cp cr hcp hcr hpre => fsGet_none_of_not_isPrefixOf env fs c p cp cr hcp hcr hpre,
    ?_, ?_⟩
  · intro f h
    obtain ⟨_, cp, cr, hcp, hcr, hpre, _⟩ := fsGet_eq_some env fs c p f h
    exact ⟨cp, cr, hcp, hcr, hpre⟩
  · intro hwf hdots
    rcases hg : (EmbeddedMiniCdn.new env fs root).get p with _ | v
    · rfl
    exfalso
    unfold EmbeddedMiniCdn.new EmbeddedMiniCdn.fromFilesystem at hg
    rcases foldl_insert_get_mem _ _ _ _ hg with hm | hi
    · obtain ⟨⟨pr, hpr, hq⟩, _⟩ := (mem_iter env fs ⟨root⟩ p v).1 hm
      revert hpr
      unfold get_paths
      split
      · intro hpr; cases hpr
      rename_i rootC hwr
      split
      · intro hpr; cases hpr
      rename_i t0 hrt
      intro hpr
      rcases List.mem_map.1 hpr with ⟨rel, hrel, hpair⟩
      have hclean := walk_segs_clean rel t0
        (wf_lookupT rootC fs t0 hwf hrt) hrel
      have hp_eq : p = joinChar SEP rel := by
        rw [← hq, ← hpair]
      cases rel with
      | nil =>
        rw [hp_eq] at hdots
        simp [joinChar, splitSegs, splitOnChar] at hdots
      | cons r rs =>
        have hsplit : splitSegs p = r :: rs := by
          rw [hp_eq]
          exact splitOnChar_joinChar SEP (r :: rs) (by simp)
            (fun x hx => by
              have := hclean x hx
              unfold cleanNameb at this
              exact (of_decide_eq_true this).2.2.2)
        rw [hsplit] at hdots
        have := hclean ['.', '.'] hdots
        unfold cleanNameb at this
        exact (of_decide_eq_true this).2.2.1 rfl
    · simp [EmbeddedMiniCdn.get] at hi

/-- C1 amended witness: the amended statement at a concrete
configuration, each hypothesis discharged. -/
theorem c1_amended_witness :
    FilesystemMiniCdn.get env0 treeEsc ⟨strL "/r"⟩ (strL "missing.txt") = none ∧
    FilesystemMiniCdn.get env0 treeSite ⟨strL "/r"⟩ (strL "../include.rs") = none ∧
    (∃ cp cr,
      canonicalize treeEsc (joinPath (strL "/r") (strL "index.html")) = some cp ∧
      canonicalize treeEsc (strL "/r") = some cr ∧ cr.isPrefixOf cp = true) ∧
    (EmbeddedMiniCdn.new env0 treeEsc (strL "/r")).get
      (strL "sub/../index.html") = none := by
  have h := c1_amended env0 treeEsc ⟨strL "/r"⟩ (strL "/r")
  refine ⟨(h (strL "missing.txt")).1 (by decide), ?_, ?_, ?_⟩
  · exact (c1_amended env0 treeSite ⟨strL "/r"⟩ (strL "/r")
      (strL "../include.rs")).2.1 (strL "/include.rs") (strL "/r") (by decide)
      (by decide) (by decide)
  · refine (h (strL "index.html")).2.2.1
      { etag := [], last_modified := [], mime := [], contents := [1, 2, 3]
        contents_brotli := none, contents_gzip := none, contents_webp := none }
      (by decide)
  · exact (h (strL "sub/../index.html")).2.2.2 (by decide) (by decide)

/-- C3: for every logical path (relative, forward-slash separated, with
no empty, `.` or `..` segments), `get` on a Filesystem store and `get`
on an Embedded store built without compression from the same root
return records with identical contents (indeed identical records, or
are both absent). -/
theorem c3_embedded_matches_filesystem (env : Env) (fs : FSTree) (root p : RStr)
    (hlog : LogicalPath p) :
    ((EmbeddedMiniCdn.new env fs root).get p).map (·.contents) =
      (FilesystemMiniCdn.get env fs ⟨root⟩ p).map (·.contents) := by
  suffices h : (EmbeddedMiniCdn.new env fs root).get p =
      FilesystemMiniCdn.get env fs ⟨root⟩ p by rw [h]
  unfold EmbeddedMiniCdn.new EmbeddedMiniCdn.fromFilesystem
  cases hf : FilesystemMiniCdn.get env fs ⟨root⟩ p with
  | some f =>
    obtain ⟨pr, hpr, hq⟩ := fsGet_some_mem_paths env fs root p f hlog hf
    apply foldl_insert_get_of_mem
    · intro pr' hpr' hq'
      obtain ⟨_, hget⟩ := (mem_iter env fs ⟨root⟩ pr'.1 pr'.2).1 (by simpa using hpr')
      rw [hq', hf] at hget
      injection hget with hget
      exact hget.symm
    · exact Or.inl ⟨(p, f), (mem_iter env fs ⟨root⟩ p f).2 ⟨⟨pr, hpr, hq⟩, hf⟩, rfl⟩
  | none =>
    cases hg : ((FilesystemMiniCdn.iter env fs ⟨root⟩).foldl
        (fun acc pr => acc.insert pr.1 pr.2) (⟨[]⟩ : EmbeddedMiniCdn)).get p with
    | none => rfl
    | some v =>
      exfalso
      rcases foldl_insert_get_mem _ _ _ _ hg with hm | hi
      · obtain ⟨_, hget⟩ := (mem_iter env fs ⟨root⟩ p v).1 hm
        rw [hf] at hget
        exact Option.noConfusion hget
      · simp [EmbeddedMiniCdn.get] at hi

/-- C3 witness: the agreement at a concrete tree and logical path. -/
theorem c3_embedded_matches_filesystem_witness :
    ((EmbeddedMiniCdn.new env0 treeEsc (strL "/r")).get
        (strL "index.html")).map (·.contents) =
      (FilesystemMiniCdn.get env0 treeEsc ⟨strL "/r"⟩
        (strL "index.html")).map (·.contents) :=
  c3_embedded_matches_filesystem env0 treeEsc (strL "/r") (strL "index.html")
    (by decide)

/-- C4: inserting into a Filesystem store first materializes the full
Embedded snapshot of its root and performs the insert on it; the result
is in Embedded mode, the inserted file is retrievable at its path,
every previously reachable file at any other path is still retrievable
with its old record, and no later insert ever leaves Embedded mode. -/
theorem c4_insert_materializes (env : Env) (fs : FSTree) (c : FilesystemMiniCdn)
    (p : RStr) (f : MiniCdnFile) :
    MiniCdn.insert env fs (.Filesystem c) p f =
      .Embedded ((EmbeddedMiniCdn.fromFilesystem env fs c).insert p f) ∧
    MiniCdn.get env fs (MiniCdn.insert env fs (.Filesystem c) p f) p = some f ∧
    (∀ q g, (q, g) ∈ FilesystemMiniCdn.iter env fs c → q ≠ p →
      MiniCdn.get env fs (MiniCdn.insert env fs (.Filesystem c) p f) q = some g) ∧
    (∀ (st : MiniCdn) (p' : RStr) (f' : MiniCdnFile) (e : EmbeddedMiniCdn),
      st = .Embedded e →
      ∃ e', MiniCdn.insert env fs st p' f' = .Embedded e') := by
  refine ⟨rfl, ?_, ?_, ?_⟩
  · exact EmbeddedMiniCdn.get_insert_self _ _ _
  · intro q g hqg hne
    show ((EmbeddedMiniCdn.fromFilesystem env fs c).insert p f).get q = some g
    rw [EmbeddedMiniCdn.get_insert_ne _ _ _ _ hne]
    unfold EmbeddedMiniCdn.fromFilesystem
    apply foldl_insert_get_of_mem
    · intro pr hpr hq
      obtain ⟨_, hget⟩ := (mem_iter env fs c pr.1 pr.2).1 (by simpa using hpr)
      obtain ⟨_, hget2⟩ := (mem_iter env fs c q g).1 hqg
      rw [hq, hget2] at hget
      injection hget with hget
      exact hget.symm
    · exact Or.inl ⟨(q, g), hqg, rfl⟩
  · rintro st p' f' e rfl
    exact ⟨_, rfl⟩

/-- C4 witness: the materializing insert at a concrete tree, with a
previously reachable file retained and an inserted file present. -/
theorem c4_insert_materializes_witness :
    MiniCdn.get env0 treeEsc
      (MiniCdn.insert env0 treeEsc (.Filesystem ⟨strL "/r"⟩)
        (strL "new.txt") dummyFile) (strL "new.txt") = some dummyFile ∧
    MiniCdn.get env0 treeEsc
      (MiniCdn.insert env0 treeEsc (.Filesystem ⟨strL "/r"⟩)
        (strL "new.txt") dummyFile) (strL "index.html") = some escFsFile ∧
    (∃ e', MiniCdn.insert env0 treeEsc (.Embedded ⟨[]⟩) (strL "a") dummyFile =
      .Embedded e') :=
  ⟨(c4_insert_materializes env0 treeEsc ⟨strL "/r"⟩ (strL "new.txt")
      dummyFile).2.1,
   (c4_insert_materializes env0 treeEsc ⟨strL "/r"⟩ (strL "new.txt")
      dummyFile).2.2.1 (strL "index.html") escFsFile (by decide) (by decide),
   (c4_insert_materializes env0 treeEsc ⟨strL "/r"⟩ (strL "new.txt")
      dummyFile).2.2.2 (.Embedded ⟨[]⟩) (strL "a") dummyFile ⟨[]⟩ rfl⟩

/-- C5 counterexample: with the store rooted at the filesystem root,
`index.html` is present at the root of the tree yet `get "/index.html"`
is also present, because `Path::join` treats the leading `/` as
absolute and replaces the configured root. -/
theorem c5_counterexample :
    (FilesystemMiniCdn.get env0 treeSlash ⟨strL "/"⟩
      (strL "index.html")).isSome = true ∧
    (FilesystemMiniCdn.get env0 treeSlash ⟨strL "/"⟩
      (strL "/index.html")).isSome = true ∧
    joinPath (strL "/any/root") (strL "/index.html") = strL "/index.html" := by
  decide

/-- C5 amended: a leading separator makes the joined path absolute
(`join` replaces the configured root entirely); such requests are still
subject to the canonical-text prefix check, so for the example tree
with root `/r` the four observations of the repository's test hold:
`index.html` present, `/index.html` absent, `subtree/some_binary.bin`
present, `../include.rs` absent. -/
theorem c5_amended (root p : RStr) (x : Char) (xs : RStr) :
    (p = x :: xs → x = SEP → joinPath root p = p) ∧
    ((FilesystemMiniCdn.get env0 treeSite ⟨strL "/r"⟩
        (strL "index.html")).isSome = true ∧
      FilesystemMiniCdn.get env0 treeSite ⟨strL "/r"⟩ (strL "/index.html") = none ∧
      (FilesystemMiniCdn.get env0 treeSite ⟨strL "/r"⟩
        (strL "subtree/some_binary.bin")).isSome = true ∧
      FilesystemMiniCdn.get env0 treeSite ⟨strL "/r"⟩ (strL "../include.rs") =
        none) := by
  constructor
  · rintro rfl rfl
    simp [joinPath]
  · decide

/-- C5 amended witness: the join-absolute clause at a concrete path. -/
theorem c5_amended_witness :
    joinPath (strL "/r") (strL "/abs") = strL "/abs" ∧
    (FilesystemMiniCdn.get env0 treeSite ⟨strL "/r"⟩
      (strL "index.html")).isSome = true :=
  ⟨(c5_amended (strL "/r") (strL "/abs") '/' (strL "abs")).1 rfl rfl,
   ((c5_amended (strL "/r") (strL "/abs") '/' (strL "abs")).2).1⟩

/-- C9 amended witness: the comparator facts at concrete entries. -/
theorem c9_amended_witness :
    (entryR (strL "b.minicdn", FSTree.file [2]) (strL "a.png", FSTree.file [1]) ∧
      ¬ entryR (strL "a.png", FSTree.file [1])
        (strL "b.minicdn", FSTree.file [2])) ∧
    (entryR (strL "a.png", FSTree.file [1]) (strL "b.png", FSTree.file [2]) ↔
      rstrLT (strL "b.png") (strL "a.png") = false) :=
  ⟨(c9_amended []).2.2.2.1 _ _ (by decide) (by decide),
   (c9_amended []).2.2.2.2 _ _ (by decide)⟩
